import Mathlib

/-!
# Verification of the crypto ML analyzer pipeline

Shallow embedding of `crypto_ml_analyzer.py`: the consolidation,
feature-engineering, splitting, scaling and training-loop logic, together
with theorems settling the specification claims about them.

Modelling conventions:
* Numeric columns are exact rationals (`ℚ`).  Values produced by an
  unguarded division are modelled by `XVal`, which distinguishes finite
  values from `inf`/`-inf`/`NaN` exactly as IEEE division of finite floats
  does; `dropna` removes a row only when some column is `NaN`/missing.
* A missing value arising from insufficient window history or a missing
  shift target is an `Option` that is `none` (pandas `NaN` of those columns).
* The timestamp is an abstract ordinal `Nat`; the calendar components
  (`hour`, `day_of_week`, `day_of_month`) are modelled as total arithmetic
  projections of it — they are never missing, which is the only fact about
  them the pipeline's row-dropping behaviour depends on.
-/

/-- One consolidated record: a raw CSV row tagged with its owning file and
category, and the combined timestamp (`datetime`), as built by
`load_and_preprocess_data`. -/
structure Row where
  datetime : Nat
  source_file : String
  dataset_category : String
  open_price : ℚ
  close_price : ℚ
  asset_volume : ℚ
  number_of_trades : Nat
deriving DecidableEq, Repr, Inhabited

/-- Result of a floating-point arithmetic step on finite inputs: either a
finite value, an infinity, or NaN.  Mirrors IEEE semantics of the pandas
columns produced by unguarded division. -/
inductive XVal where
  | fin : ℚ → XVal
  | pinf : XVal
  | ninf : XVal
  | nan : XVal
deriving DecidableEq, Repr, Inhabited

/-- IEEE division of two finite values: `a / 0` is `NaN` when `a = 0` and a
signed infinity otherwise. -/
def fdiv (a b : ℚ) : XVal :=
  if b = 0 then
    if a = 0 then .nan else if 0 < a then .pinf else .ninf
  else .fin (a / b)

/-- Multiplication of an extended value by a finite constant (IEEE). -/
def XVal.scale (c : ℚ) : XVal → XVal
  | .fin q => .fin (q * c)
  | .pinf => if 0 < c then .pinf else if c < 0 then .ninf else .nan
  | .ninf => if 0 < c then .ninf else if c < 0 then .pinf else .nan
  | .nan => .nan

/-- Absolute value of an extended value (IEEE `np.abs`). -/
def XVal.abs : XVal → XVal
  | .fin q => .fin |q|
  | .pinf => .pinf
  | .ninf => .pinf
  | .nan => .nan

/-- `NaN` test: this is exactly the per-value predicate `dropna` acts on. -/
def XVal.isNaN : XVal → Bool
  | .nan => true
  | _ => false

/-- Finiteness test (infinities and NaN are not finite). -/
def XVal.isFinite : XVal → Bool
  | .fin _ => true
  | _ => false

/-- `price_change = close_price - open_price`. -/
def Row.price_change (r : Row) : ℚ := r.close_price - r.open_price

/-- `price_change_pct = (price_change / open_price) * 100` — the division is
unguarded, so a zero `open_price` yields a non-finite value. -/
def Row.price_change_pct (r : Row) : XVal :=
  (fdiv r.price_change r.open_price).scale 100

/-- `volatility = abs(price_change_pct)`. -/
def Row.volatility (r : Row) : XVal := r.price_change_pct.abs

/-- `volume_per_trade = asset_volume / (number_of_trades + 1)`; the `+ 1`
keeps the divisor nonzero for every count. -/
def Row.volume_per_trade (r : Row) : XVal :=
  fdiv r.asset_volume ((r.number_of_trades : ℚ) + 1)

/-- `volume_price_ratio = asset_volume / open_price` — again unguarded. -/
def Row.volume_price_ratio (r : Row) : XVal :=
  fdiv r.asset_volume r.open_price

/-- Calendar components of the combined timestamp; total functions of the
abstract ordinal (their exact values are irrelevant to every claim, their
totality — never missing — is what the drop step sees). -/
def Row.hour (r : Row) : Nat := r.datetime % 24

def Row.day_of_week (r : Row) : Nat := r.datetime / 24 % 7

def Row.day_of_month (r : Row) : Nat := r.datetime / 24 % 31 + 1

/-- `needle` occurs as a contiguous run inside `hay` (Python `in` on
strings, applied to the character lists). -/
def containsSeq (hay pat : List Char) : Bool :=
  (List.range (hay.length + 1)).any fun i => (hay.drop i).take pat.length == pat

/-- ASCII lowercasing of one character (`str.lower`, which on the ASCII
range maps `A`-`Z` to `a`-`z` and fixes everything else). -/
def lowerChar (c : Char) : Char :=
  if 65 ≤ c.toNat ∧ c.toNat ≤ 90 then Char.ofNat (c.toNat + 32) else c

/-- `filename.lower()` as a character list. -/
def lowerStr (s : String) : List Char := s.data.map lowerChar

/-- Case-insensitive keyword test used by `_categorize_file`: the filename
is lowered first, keywords are literal lowercase strings. -/
def fileHas (filename kw : String) : Bool :=
  containsSeq (lowerStr filename) kw.data

/-- `_categorize_file`: fixed keyword-matching rule over the filename,
case-insensitive, first match wins in the listed order. -/
def categorize_file (filename : String) : String :=
  if fileHas filename "bitcoin" || fileHas filename "btc" then "bitcoin"
  else if fileHas filename "ethereum" || fileHas filename "eth" then "ethereum"
  else if fileHas filename "defi" then "defi"
  else if fileHas filename "meme" then "meme"
  else if fileHas filename "altcoin" then "altcoin"
  else "other"

/-- Row test "belongs to source `s`" (the `groupby('source_file')` key). -/
def sameSrc (s : String) (r : Row) : Bool := r.source_file == s

/-- The rows of one source group, in consolidated order (pandas `groupby`
preserves within-group order). -/
def groupRows (xs : List Row) (s : String) : List Row := xs.filter (sameSrc s)

/-- Row at a global position (total, with a default off the end). -/
def rowAt (xs : List Row) (i : Nat) : Row := xs.getD i default

/-- In-group position of global row `i`: how many earlier rows share its
`source_file`. -/
def inGroupPos (xs : List Row) (i : Nat) : Nat :=
  ((xs.take i).filter (sameSrc (rowAt xs i).source_file)).length

/-- `rolling(window=w).mean()` at in-group position `p` over the group's
column values: mean of the `w` trailing values, `NaN` (`none`) while fewer
than `w` values have been seen (pandas default `min_periods = window`). -/
def rollingMeanAt (w : Nat) (vals : List ℚ) (p : Nat) : Option ℚ :=
  if w ≤ p + 1 then some ((((vals.take (p + 1)).drop (p + 1 - w)).sum) / w)
  else none

/-- `shift(k)` at in-group position `p`: the value `k` rows earlier in the
same group, `NaN` (`none`) for the first `k` rows. -/
def lagValAt (k : Nat) (vals : List ℚ) (p : Nat) : Option ℚ :=
  if k ≤ p then vals[p - k]? else none

/-- `shift(-1)` at in-group position `p`: the next value in the same group,
`NaN` (`none`) on the group's last row. -/
def nextValAt (vals : List ℚ) (p : Nat) : Option ℚ := vals[p + 1]?

/-- Column of row `i`'s own group, in group order. -/
def groupColAt (xs : List Row) (i : Nat) (f : Row → ℚ) : List ℚ :=
  (groupRows xs (rowAt xs i).source_file).map f

/-- `sma_w` of global row `i`: per-source rolling mean of `close_price`. -/
def smaAt (w : Nat) (xs : List Row) (i : Nat) : Option ℚ :=
  rollingMeanAt w (groupColAt xs i (·.close_price)) (inGroupPos xs i)

/-- `volume_sma_w`: per-source rolling mean of `asset_volume`. -/
def volSmaAt (w : Nat) (xs : List Row) (i : Nat) : Option ℚ :=
  rollingMeanAt w (groupColAt xs i (·.asset_volume)) (inGroupPos xs i)

/-- `price_lag_k`: per-source lag of `close_price`. -/
def priceLagAt (k : Nat) (xs : List Row) (i : Nat) : Option ℚ :=
  lagValAt k (groupColAt xs i (·.close_price)) (inGroupPos xs i)

/-- `volume_lag_k`: per-source lag of `asset_volume`. -/
def volumeLagAt (k : Nat) (xs : List Row) (i : Nat) : Option ℚ :=
  lagValAt k (groupColAt xs i (·.asset_volume)) (inGroupPos xs i)

/-- `next_close_price`: per-source one-row forward shift of `close_price`. -/
def nextCloseAt (xs : List Row) (i : Nat) : Option ℚ :=
  nextValAt (groupColAt xs i (·.close_price)) (inGroupPos xs i)

/-- One fully engineered row, all derived columns attached
(`_engineer_features` before the drop step). -/
structure FeatRow where
  base : Row
  price_change : ℚ
  price_change_pct : XVal
  volatility : XVal
  volume_per_trade : XVal
  volume_price_ratio : XVal
  hour : Nat
  day_of_week : Nat
  day_of_month : Nat
  sma_3 : Option ℚ
  sma_5 : Option ℚ
  sma_10 : Option ℚ
  volume_sma_3 : Option ℚ
  volume_sma_5 : Option ℚ
  volume_sma_10 : Option ℚ
  price_lag_1 : Option ℚ
  price_lag_2 : Option ℚ
  price_lag_3 : Option ℚ
  volume_lag_1 : Option ℚ
  volume_lag_2 : Option ℚ
  volume_lag_3 : Option ℚ
  next_close_price : Option ℚ
deriving DecidableEq, Repr

/-- All engineered columns of the row at global position `i`. -/
def engineerAt (xs : List Row) (i : Nat) : FeatRow :=
  let r := rowAt xs i
  { base := r
    price_change := r.price_change
    price_change_pct := r.price_change_pct
    volatility := r.volatility
    volume_per_trade := r.volume_per_trade
    volume_price_ratio := r.volume_price_ratio
    hour := r.hour
    day_of_week := r.day_of_week
    day_of_month := r.day_of_month
    sma_3 := smaAt 3 xs i
    sma_5 := smaAt 5 xs i
    sma_10 := smaAt 10 xs i
    volume_sma_3 := volSmaAt 3 xs i
    volume_sma_5 := volSmaAt 5 xs i
    volume_sma_10 := volSmaAt 10 xs i
    price_lag_1 := priceLagAt 1 xs i
    price_lag_2 := priceLagAt 2 xs i
    price_lag_3 := priceLagAt 3 xs i
    volume_lag_1 := volumeLagAt 1 xs i
    volume_lag_2 := volumeLagAt 2 xs i
    volume_lag_3 := volumeLagAt 3 xs i
    next_close_price := nextCloseAt xs i }

/-- A row survives `dropna()`: no column is `NaN`/missing.  The input
columns and the calendar columns are total, so only the division-derived
columns (possible `NaN`) and the windowed/shift columns (possible missing)
can disqualify a row. -/
def rowComplete (f : FeatRow) : Bool :=
  !f.price_change_pct.isNaN && !f.volatility.isNaN &&
  !f.volume_per_trade.isNaN && !f.volume_price_ratio.isNaN &&
  f.sma_3.isSome && f.sma_5.isSome && f.sma_10.isSome &&
  f.volume_sma_3.isSome && f.volume_sma_5.isSome && f.volume_sma_10.isSome &&
  f.price_lag_1.isSome && f.price_lag_2.isSome && f.price_lag_3.isSome &&
  f.volume_lag_1.isSome && f.volume_lag_2.isSome && f.volume_lag_3.isSome &&
  f.next_close_price.isSome

/-- `_engineer_features`: derive every column for every row, then drop the
rows containing an undefined value. -/
def engineer_features (xs : List Row) : List FeatRow :=
  ((List.range xs.length).map (engineerAt xs)).filter rowComplete

/-- One raw input row before consolidation (the required CSV columns, with
the date/open-time pair already fused into the abstract ordinal that
`pd.to_datetime` produces). -/
structure RawRow where
  datetime : Nat
  open_price : ℚ
  close_price : ℚ
  asset_volume : ℚ
  number_of_trades : Nat
deriving DecidableEq, Repr, Inhabited

/-- Tagging one file's rows with source identity and category
(`load_and_preprocess_data`, per-file loop body). -/
def tagRows (filename : String) (rs : List RawRow) : List Row :=
  rs.map fun r =>
    { datetime := r.datetime
      source_file := filename
      dataset_category := categorize_file filename
      open_price := r.open_price
      close_price := r.close_price
      asset_volume := r.asset_volume
      number_of_trades := r.number_of_trades }

/-- `pd.concat` of all tagged per-file collections, in file order. -/
def concatFiles (files : List (String × List RawRow)) : List Row :=
  (files.map fun f => tagRows f.1 f.2).flatten

/-- Nondecreasing in `datetime` along the list. -/
def sortedByDt (xs : List Row) : Prop :=
  List.Chain' (fun a b => a.datetime ≤ b.datetime) xs

/-- Contract of `consolidated.sort_values('datetime')`: the output is some
permutation of the concatenated rows that is sorted by `datetime`.  The
library's default sort kind is quicksort, which its documentation does not
guarantee to be stable, so the contract fixes no particular order among
rows with equal `datetime`. -/
def consolidates (files : List (String × List RawRow)) (out : List Row) : Prop :=
  (concatFiles files).Perm out ∧ sortedByDt out

/-- Stable insertion: places `r` before the first strictly later row, after
all equal-or-earlier ones. -/
def insertByDt (r : Row) : List Row → List Row
  | [] => [r]
  | x :: xs => if r.datetime ≤ x.datetime then r :: x :: xs else x :: insertByDt r xs

/-- The stable sort by `datetime` (ties in original row order): the order
the specification asserts for the consolidated collection. -/
def stableSortByDt (xs : List Row) : List Row := xs.foldr insertByDt []

/-- sklearn `train_test_split(shuffle=False)` on one ordered collection:
the test slice is the trailing `ceil(test_size * n)` rows; raises when
`test_size` is out of range or the resulting train slice would be empty
(which includes every call on an empty collection). -/
def ttsplit {α : Type} (xs : List α) (test_size : ℚ) : Except String (List α × List α) :=
  if 0 < test_size ∧ test_size < 1 then
    if xs.length - ⌈test_size * xs.length⌉₊ = 0 then
      Except.error "the resulting train set will be empty"
    else
      Except.ok (xs.take (xs.length - ⌈test_size * xs.length⌉₊),
        xs.drop (xs.length - ⌈test_size * xs.length⌉₊))
  else Except.error "test_size should be in the (0, 1) range"

/-- `split_data`: raises when no consolidated data exists, otherwise takes
the trailing `test_size` fraction as test, then the trailing
`val_size / (1 - test_size)` fraction of the remainder as validation. -/
def split_data {α : Type} (data : Option (List α)) (test_size val_size : ℚ) :
    Except String (List α × List α × List α) :=
  match data with
  | none => Except.error "No data loaded. Run load_and_preprocess_data() first."
  | some xs =>
    match ttsplit xs test_size with
    | Except.error e => Except.error e
    | Except.ok (tmp, te) =>
      match ttsplit tmp (val_size / (1 - test_size)) with
      | Except.error e => Except.error e
      | Except.ok (tr, va) => Except.ok (tr, va, te)

/-- `Except` success test. -/
def okB {ε α : Type} : Except ε α → Bool
  | Except.ok _ => true
  | Except.error _ => false

/-- Mean of one feature column (`StandardScaler` statistic). -/
def colMean (xs : List ℚ) : ℚ := xs.sum / xs.length

/-- Population variance of one feature column (`StandardScaler` statistic;
the scale the transform divides by is its square root). -/
def colVar (xs : List ℚ) : ℚ :=
  ((xs.map fun x => (x - colMean xs) ^ 2).sum) / xs.length

/-- The statistics a fitted `StandardScaler` stores. -/
structure ScalerParams where
  mean : ℚ
  var : ℚ
deriving DecidableEq, Repr

/-- Output of the scaling step of `train_models`. -/
structure ScaledSplit where
  params : ScalerParams
  train_scaled : List ℚ
  val_scaled : List ℚ
  test_scaled : List ℚ
deriving DecidableEq, Repr

/-- The scaling step of `train_models`, one feature column at a time:
`scaler.fit_transform(X_train)` fits mean/variance on the train column
only, then the identical transform `x ↦ (x - mean) / sqrt var` is applied
to train, validation and test.  `sq` is the library's square-root routine,
abstracted (the transform's shape does not depend on it). -/
def scaleFeatures (sq : ℚ → ℚ) (Xtr Xval Xte : List ℚ) : ScaledSplit :=
  let m := colMean Xtr
  let v := colVar Xtr
  let s := sq v
  { params := ⟨m, v⟩
    train_scaled := Xtr.map fun x => (x - m) / s
    val_scaled := Xval.map fun x => (x - m) / s
    test_scaled := Xte.map fun x => (x - m) / s }

/-- One model's metrics as stored by the training loop. -/
structure ModelResult where
  train_score : ℚ
  val_score : ℚ
  test_score : ℚ
  mse : ℚ
  mae : ℚ
deriving DecidableEq, Repr

/-- The fixed roster of `train_models`. -/
def modelRoster : List String :=
  ["Random Forest", "Gradient Boosting", "Linear Regression", "Ridge Regression"]

/-- The `train_models` loop body: each entry pairs a model name with the
outcome of its fit (`Except.error` models a raised exception).  A failure
is caught and reported; the loop then continues, so `results` accumulates
exactly the successful fits, in roster order. -/
def runTrainingLoop (fits : List (String × Except String ModelResult)) :
    List (String × ModelResult) :=
  fits.foldr
    (fun nf acc =>
      match nf.2 with
      | Except.ok r => (nf.1, r) :: acc
      | Except.error _ => acc)
    []

/-- The keyword table, in the precedence order the specification states. -/
def keywordRules : List (List String × String) :=
  [(["bitcoin", "btc"], "bitcoin"), (["ethereum", "eth"], "ethereum"),
   (["defi"], "defi"), (["meme"], "meme"), (["altcoin"], "altcoin")]

/-- Categorization following the specification's words: scan the rules in
order and return the label of the first rule with a (case-insensitive)
keyword hit, else `"other"`.  Stated for comparison with the code's
`categorize_file`. -/
def specCategorize (filename : String) : String :=
  match keywordRules.find? (fun rule => rule.1.any fun kw => fileHas filename kw) with
  | some rule => rule.2
  | none => "other"

example : categorize_file "BTC_data.csv" = "bitcoin" := by decide
example : categorize_file "my-altcoins.csv" = "altcoin" := by decide
example : categorize_file "weather.csv" = "other" := by decide
example : fdiv 1 0 = .pinf := by decide
example : fdiv 0 0 = .nan := by decide
example : (ttsplit (List.range 10) (1/10 : ℚ)).toOption = some (List.range 9, [9]) := by
  with_unfolding_all decide

/-! ## Helper lemmas -/

theorem fileHas_of_lower_eq {f g : String} (h : lowerStr f = lowerStr g) (kw : String) :
    fileHas f kw = fileHas g kw := by
  unfold fileHas; rw [h]

theorem runTrainingLoop_cons (p : String × Except String ModelResult)
    (ps : List (String × Except String ModelResult)) :
    runTrainingLoop (p :: ps)
      = match p.2 with
        | Except.ok r => (p.1, r) :: runTrainingLoop ps
        | Except.error _ => runTrainingLoop ps := rfl

theorem runTrainingLoop_eq_filterMap (fits : List (String × Except String ModelResult)) :
    runTrainingLoop fits
      = fits.filterMap fun nf => nf.2.toOption.map fun r => (nf.1, r) := by
  induction fits with
  | nil => rfl
  | cons p ps ih =>
    cases h : p.2 <;>
      simp [runTrainingLoop_cons, List.filterMap_cons, h, Except.toOption, ih]

theorem runTrainingLoop_append (xs ys : List (String × Except String ModelResult)) :
    runTrainingLoop (xs ++ ys) = runTrainingLoop xs ++ runTrainingLoop ys := by
  simp [runTrainingLoop_eq_filterMap, List.filterMap_append]

/-! ## Claim theorems -/

/-- **C7.** Category classification is a total function over filenames into
`{bitcoin, ethereum, defi, meme, altcoin, other}`; it coincides with the
spec's first-match-wins scan of the keyword table in the order
bitcoin→ethereum→defi→meme→altcoin→other; it depends only on the lowered
filename (case-insensitive); and the literal keywords bitcoin/btc and
ethereum/eth trigger their categories with the stated precedence. -/
theorem c7_categorize (f : String) :
    categorize_file f = specCategorize f
    ∧ categorize_file f ∈ ["bitcoin", "ethereum", "defi", "meme", "altcoin", "other"]
    ∧ (∀ g, lowerStr f = lowerStr g → categorize_file f = categorize_file g)
    ∧ ((fileHas f "bitcoin" || fileHas f "btc") = true → categorize_file f = "bitcoin")
    ∧ ((fileHas f "bitcoin" || fileHas f "btc") = false →
        (fileHas f "ethereum" || fileHas f "eth") = true → categorize_file f = "ethereum")
    ∧ ((fileHas f "bitcoin" || fileHas f "btc") = false →
        (fileHas f "ethereum" || fileHas f "eth") = false →
        fileHas f "defi" = false → fileHas f "meme" = false →
        fileHas f "altcoin" = false → categorize_file f = "other") := by
  refine ⟨?_, ?_, ?_, ?_, ?_, ?_⟩
  · unfold categorize_file specCategorize keywordRules
    cases h1 : fileHas f "bitcoin" <;> cases h2 : fileHas f "btc" <;>
      cases h3 : fileHas f "ethereum" <;> cases h4 : fileHas f "eth" <;>
      cases h5 : fileHas f "defi" <;> cases h6 : fileHas f "meme" <;>
      cases h7 : fileHas f "altcoin" <;>
      simp [h1, h2, h3, h4, h5, h6, h7, List.find?]
  · unfold categorize_file
    split_ifs <;> simp
  · intro g h
    unfold categorize_file
    rw [fileHas_of_lower_eq h "bitcoin", fileHas_of_lower_eq h "btc",
      fileHas_of_lower_eq h "ethereum", fileHas_of_lower_eq h "eth",
      fileHas_of_lower_eq h "defi", fileHas_of_lower_eq h "meme",
      fileHas_of_lower_eq h "altcoin"]
  · intro h; unfold categorize_file; rw [h]; rfl
  · intro h1 h2; unfold categorize_file; rw [h1, h2]; rfl
  · intro h1 h2 h3 h4 h5; unfold categorize_file; rw [h1, h2, h3, h4, h5]; rfl

/-- Witness for C7 at concrete filenames: the BTC keyword beats the DeFi
keyword regardless of letter case, and an unrelated name is `other`. -/
theorem c7_categorize_witness :
    categorize_file "DeFi-BTC-fund.csv" = "bitcoin"
    ∧ categorize_file "weather-data.csv" = "other" :=
  ⟨(c7_categorize "DeFi-BTC-fund.csv").2.2.2.1 (by decide),
    (c7_categorize "weather-data.csv").2.2.2.2.2 (by decide) (by decide) (by decide)
      (by decide) (by decide)⟩

/-- **C6.** The feature scaler is fit on the train partition only: the
stored statistics are exactly the train column's mean and variance, they do
not change under any perturbation of the validation or test rows, and the
transform applied to validation and test is the affine map
`x ↦ (1/σ)·x − μ/σ` whose coefficients are derived solely from the train
statistics (`σ` being the library's square root of the train variance). -/
theorem c6_scaler_train_only (sq : ℚ → ℚ) (Xtr Xval Xte Xval2 Xte2 : List ℚ) :
    (scaleFeatures sq Xtr Xval Xte).params = (scaleFeatures sq Xtr Xval2 Xte2).params
    ∧ (scaleFeatures sq Xtr Xval Xte).params = ⟨colMean Xtr, colVar Xtr⟩
    ∧ (scaleFeatures sq Xtr Xval Xte).val_scaled
        = Xval.map (fun x => 1 / sq (colVar Xtr) * x - colMean Xtr / sq (colVar Xtr))
    ∧ (scaleFeatures sq Xtr Xval Xte).test_scaled
        = Xte.map (fun x => 1 / sq (colVar Xtr) * x - colMean Xtr / sq (colVar Xtr)) := by
  refine ⟨rfl, rfl, ?_, ?_⟩ <;>
    · simp only [scaleFeatures]
      refine List.map_congr_left fun x _ => ?_
      rw [sub_div, one_div_mul_eq_div]

/-- **C8.** A model whose fit raises is skipped without aborting its
siblings: the loop over a roster splits around the failure, an all-success
roster yields one result per model, and the returned model names are
exactly the successfully fitted ones in roster order. -/
theorem c8_training_isolation :
    (∀ pre post (n : String) (e : String),
      runTrainingLoop (pre ++ (n, Except.error e) :: post)
        = runTrainingLoop pre ++ runTrainingLoop post)
    ∧ (∀ fits, (∀ p ∈ fits, okB p.2 = true) → (runTrainingLoop fits).length = fits.length)
    ∧ (∀ fits, (runTrainingLoop fits).map Prod.fst
        = (fits.filter fun p => okB p.2).map Prod.fst) := by
  refine ⟨?_, ?_, ?_⟩
  · intro pre post n e
    rw [runTrainingLoop_append, runTrainingLoop_cons]
  · intro fits h
    induction fits with
    | nil => rfl
    | cons p ps ih =>
      have hp := h p (by simp)
      cases hp2 : p.2 with
      | error e => rw [hp2] at hp; simp [okB] at hp
      | ok r =>
        simp only [runTrainingLoop_cons, hp2, List.length_cons]
        exact congrArg Nat.succ (ih fun q hq => h q (by simp [hq]))
  · intro fits
    induction fits with
    | nil => rfl
    | cons p ps ih =>
      cases hp2 : p.2 <;>
        simp [runTrainingLoop_cons, hp2, okB, List.filter_cons, ih]

/-- Witness for C8: with the four-model roster and `Gradient Boosting`
failing, the loop returns results for the other three. -/
theorem c8_training_isolation_witness :
    runTrainingLoop
        [("Random Forest", Except.ok ⟨1, 1, 1, 0, 0⟩),
         ("Gradient Boosting", Except.error "numerical instability"),
         ("Linear Regression", Except.ok ⟨1, 1, 1, 0, 0⟩),
         ("Ridge Regression", Except.ok ⟨1, 1, 1, 0, 0⟩)]
      = runTrainingLoop [("Random Forest", Except.ok ⟨1, 1, 1, 0, 0⟩)]
        ++ runTrainingLoop
          [("Linear Regression", Except.ok ⟨1, 1, 1, 0, 0⟩),
           ("Ridge Regression", Except.ok ⟨1, 1, 1, 0, 0⟩)]
    ∧ (runTrainingLoop
        [("Random Forest", Except.ok ⟨1, 1, 1, 0, 0⟩),
         ("Linear Regression", Except.ok ⟨1, 1, 1, 0, 0⟩),
         ("Ridge Regression", Except.ok ⟨1, 1, 1, 0, 0⟩)]).length = 3 :=
  ⟨c8_training_isolation.1 [("Random Forest", Except.ok ⟨1, 1, 1, 0, 0⟩)]
      [("Linear Regression", Except.ok ⟨1, 1, 1, 0, 0⟩),
       ("Ridge Regression", Except.ok ⟨1, 1, 1, 0, 0⟩)]
      "Gradient Boosting" "numerical instability",
    c8_training_isolation.2.1 _ (by decide)⟩

/-- **C9.** Invoking the splitter with no consolidated data, or on an empty
engineered collection, always fails with a signalled error — for every pair
of fractions — and never returns partitions. -/
theorem c9_split_preconditions (t v : ℚ) :
    okB (split_data (α := FeatRow) none t v) = false
    ∧ okB (split_data (some ([] : List FeatRow)) t v) = false := by
  constructor
  · rfl
  · unfold split_data ttsplit
    by_cases h : 0 < t ∧ t < 1 <;> simp [h, okB]

/-! ## Per-source scoping of windowed features (C1, C2) -/

/-- The same-source rows at or before global row `i`: the set the claim
says is the only one eligible to feed row `i`'s backward-looking
features. -/
def eligRows (xs : List Row) (i : Nat) : List Row :=
  (xs.take (i + 1)).filter (sameSrc (rowAt xs i).source_file)

/-- The same-source rows strictly after global row `i` (the group's
remainder; its head is the chronologically next row of the group). -/
def trailRows (xs : List Row) (i : Nat) : List Row :=
  (xs.drop (i + 1)).filter (sameSrc (rowAt xs i).source_file)

/-- Rolling mean in the specification's words: the mean of the trailing `w`
values of the eligible column, defined once `w` values have been seen. -/
def smaSpecV (w : Nat) (vs : List ℚ) : Option ℚ :=
  if w ≤ vs.length then some ((vs.drop (vs.length - w)).sum / w) else none

/-- Lag in the specification's words: the value `k` back from the end of
the eligible column. -/
def lagSpecV (k : Nat) (vs : List ℚ) : Option ℚ :=
  if k + 1 ≤ vs.length then vs[vs.length - 1 - k]? else none

theorem rowAt_eq_getElem (xs : List Row) (i : Nat) (hi : i < xs.length) :
    rowAt xs i = xs[i] := by
  simp [rowAt, List.getD_eq_getElem?_getD, List.getElem?_eq_getElem hi]

theorem grp_split (xs : List Row) (i : Nat) :
    groupRows xs (rowAt xs i).source_file = eligRows xs i ++ trailRows xs i := by
  unfold groupRows eligRows trailRows
  generalize (rowAt xs i).source_file = s
  conv_lhs => rw [← List.take_append_drop (i + 1) xs]
  rw [List.filter_append]

theorem elig_length (xs : List Row) (i : Nat) (hi : i < xs.length) :
    (eligRows xs i).length = inGroupPos xs i + 1 := by
  unfold eligRows inGroupPos
  rw [List.take_succ, List.filter_append, List.length_append,
    List.getElem?_eq_getElem hi]
  simp [rowAt_eq_getElem xs i hi, sameSrc]

theorem groupColAt_take (xs : List Row) (i : Nat) (f : Row → ℚ) (hi : i < xs.length) :
    (groupColAt xs i f).take (inGroupPos xs i + 1) = (eligRows xs i).map f := by
  unfold groupColAt
  rw [grp_split, List.map_append]
  exact List.take_left' (by rw [List.length_map, elig_length xs i hi])

theorem groupColAt_next (xs : List Row) (i : Nat) (f : Row → ℚ) (hi : i < xs.length) :
    (groupColAt xs i f)[inGroupPos xs i + 1]? = ((trailRows xs i).map f).head? := by
  unfold groupColAt
  rw [grp_split, List.map_append,
    List.getElem?_append_right (by rw [List.length_map, elig_length xs i hi]),
    List.length_map, elig_length xs i hi]
  simp [List.head?_eq_getElem?]

theorem groupColAt_lag (xs : List Row) (i : Nat) (f : Row → ℚ) (k : Nat)
    (hi : i < xs.length) (hk : k ≤ inGroupPos xs i) :
    (groupColAt xs i f)[inGroupPos xs i - k]?
      = ((eligRows xs i).map f)[inGroupPos xs i - k]? := by
  unfold groupColAt
  rw [grp_split, List.map_append,
    List.getElem?_append_left (by rw [List.length_map, elig_length xs i hi]; omega)]

theorem nextCloseAt_eq_trail (xs : List Row) (i : Nat) (hi : i < xs.length) :
    nextCloseAt xs i = ((trailRows xs i).map (·.close_price)).head? := by
  unfold nextCloseAt nextValAt
  rw [groupColAt_next xs i _ hi]

theorem head?_filter_eq_find? (p : α → Bool) (l : List α) :
    (l.filter p).head? = l.find? p := by
  induction l with
  | nil => rfl
  | cons a l ih => by_cases h : p a <;> simp [List.filter_cons, List.find?_cons, h, ih]

theorem rowComplete_isSome_next {f : FeatRow} (h : rowComplete f = true) :
    f.next_close_price.isSome = true := by
  unfold rowComplete at h
  simp only [Bool.and_eq_true] at h
  exact h.2

/-- **C1 (amended).** Every rolling mean and every lag of global row `i` is
a function of the same-source rows at or before `i` alone (via the stated
spec-side formulas), and both the eligible and trailing sets contain only
rows of row `i`'s own `source_file` — so no feature or target value is
derived from a different source.  The target, however, is a function of
the same-source rows strictly *after* `i` (its group's next row), not of
the rows at or before `i`. -/
theorem c1_features_scoped (xs : List Row) (i : Nat) (hi : i < xs.length) :
    (∀ r ∈ eligRows xs i, r.source_file = (rowAt xs i).source_file)
    ∧ (∀ r ∈ trailRows xs i, r.source_file = (rowAt xs i).source_file)
    ∧ (∀ w, smaAt w xs i = smaSpecV w ((eligRows xs i).map (·.close_price)))
    ∧ (∀ w, volSmaAt w xs i = smaSpecV w ((eligRows xs i).map (·.asset_volume)))
    ∧ (∀ k, priceLagAt k xs i = lagSpecV k ((eligRows xs i).map (·.close_price)))
    ∧ (∀ k, volumeLagAt k xs i = lagSpecV k ((eligRows xs i).map (·.asset_volume)))
    ∧ nextCloseAt xs i = ((trailRows xs i).map (·.close_price)).head? := by
  have hp := elig_length xs i hi
  refine ⟨?_, ?_, ?_, ?_, ?_, ?_, nextCloseAt_eq_trail xs i hi⟩
  · intro r hr
    have := (List.mem_filter.mp hr).2
    simpa [sameSrc] using this
  · intro r hr
    have := (List.mem_filter.mp hr).2
    simpa [sameSrc] using this
  · intro w
    unfold smaAt rollingMeanAt smaSpecV
    rw [List.length_map, hp]
    by_cases hw : w ≤ inGroupPos xs i + 1
    · rw [if_pos hw, if_pos hw, groupColAt_take xs i _ hi]
    · rw [if_neg hw, if_neg hw]
  · intro w
    unfold volSmaAt rollingMeanAt smaSpecV
    rw [List.length_map, hp]
    by_cases hw : w ≤ inGroupPos xs i + 1
    · rw [if_pos hw, if_pos hw, groupColAt_take xs i _ hi]
    · rw [if_neg hw, if_neg hw]
  · intro k
    unfold priceLagAt lagValAt lagSpecV
    rw [List.length_map, hp]
    by_cases hk : k ≤ inGroupPos xs i
    · rw [if_pos hk, if_pos (by omega)]
      have he : inGroupPos xs i + 1 - 1 - k = inGroupPos xs i - k := by omega
      rw [he, groupColAt_lag xs i _ k hi hk]
    · rw [if_neg hk, if_neg (by omega)]
  · intro k
    unfold volumeLagAt lagValAt lagSpecV
    rw [List.length_map, hp]
    by_cases hk : k ≤ inGroupPos xs i
    · rw [if_pos hk, if_pos (by omega)]
      have he : inGroupPos xs i + 1 - 1 - k = inGroupPos xs i - k := by omega
      rw [he, groupColAt_lag xs i _ k hi hk]
    · rw [if_neg hk, if_neg (by omega)]

/-- Two-row single-source collection used in concrete checks. -/
def cRowA : Row :=
  { datetime := 0, source_file := "a.csv", dataset_category := "other",
    open_price := 1, close_price := 2, asset_volume := 3, number_of_trades := 4 }

/-- Second row of the same source. -/
def cRowB : Row :=
  { datetime := 1, source_file := "a.csv", dataset_category := "other",
    open_price := 2, close_price := 5, asset_volume := 3, number_of_trades := 4 }

/-- Variant of `cRowB` with a different close price. -/
def cRowB2 : Row :=
  { datetime := 1, source_file := "a.csv", dataset_category := "other",
    open_price := 2, close_price := 7, asset_volume := 3, number_of_trades := 4 }

/-- Counterexample to C1 as stated: the target of row 0 is *not* computed
only from rows at or before it — two collections agreeing on all rows at
or before row 0 (and on its source) give different `next_close_price`,
because the target reads the following row. -/
theorem c1_target_counterexample :
    eligRows [cRowA, cRowB] 0 = eligRows [cRowA, cRowB2] 0
    ∧ rowAt [cRowA, cRowB] 0 = rowAt [cRowA, cRowB2] 0
    ∧ nextCloseAt [cRowA, cRowB] 0 ≠ nextCloseAt [cRowA, cRowB2] 0 := by
  refine ⟨by decide, by decide, by decide⟩

/-- Witness for C1 (amended) at a concrete two-row collection. -/
theorem c1_features_scoped_witness :
    smaAt 3 [cRowA, cRowB] 1 = smaSpecV 3 ((eligRows [cRowA, cRowB] 1).map (·.close_price))
    ∧ priceLagAt 1 [cRowA, cRowB] 1
        = lagSpecV 1 ((eligRows [cRowA, cRowB] 1).map (·.close_price))
    ∧ nextCloseAt [cRowA, cRowB] 1 = ((trailRows [cRowA, cRowB] 1).map (·.close_price)).head? :=
  ⟨(c1_features_scoped [cRowA, cRowB] 1 (by decide)).2.2.1 3,
    (c1_features_scoped [cRowA, cRowB] 1 (by decide)).2.2.2.2.1 1,
    (c1_features_scoped [cRowA, cRowB] 1 (by decide)).2.2.2.2.2.2⟩

/-- **C2.** `next_close_price` of row `i` is the close price of the first
subsequent row of the same source (the group's chronologically next row),
`none` when no such row exists; a row that is last in its group therefore
has an undefined target and its engineered row is dropped from the final
collection. -/
theorem c2_next_close (xs : List Row) (i : Nat) (hi : i < xs.length) :
    (engineerAt xs i).next_close_price
      = ((xs.drop (i + 1)).find? (sameSrc (rowAt xs i).source_file)).map (·.close_price)
    ∧ ((∀ r ∈ xs.drop (i + 1), r.source_file ≠ (rowAt xs i).source_file) →
        (engineerAt xs i).next_close_price = none
        ∧ engineerAt xs i ∉ engineer_features xs) := by
  have heq : (engineerAt xs i).next_close_price
      = ((xs.drop (i + 1)).find? (sameSrc (rowAt xs i).source_file)).map (·.close_price) := by
    show nextCloseAt xs i = _
    rw [nextCloseAt_eq_trail xs i hi]
    unfold trailRows
    rw [List.head?_map, head?_filter_eq_find?]
  refine ⟨heq, fun h => ?_⟩
  have hfind : (xs.drop (i + 1)).find? (sameSrc (rowAt xs i).source_file) = none := by
    rw [List.find?_eq_none]
    intro r hr
    simp [sameSrc]
    exact h r hr
  have hnone : (engineerAt xs i).next_close_price = none := by rw [heq, hfind]; rfl
  refine ⟨hnone, fun hmem => ?_⟩
  have hc : rowComplete (engineerAt xs i) = true := (List.mem_filter.mp hmem).2
  have hs := rowComplete_isSome_next hc
  rw [hnone] at hs
  simp at hs

/-- Witness for C2: in a two-row single-source collection the first row's
target is the second row's close price; in a one-row collection the single
row is last in its group, its target is undefined, and it is dropped. -/
theorem c2_next_close_witness :
    (engineerAt [cRowA, cRowB] 0).next_close_price
      = (([cRowB] : List Row).find? (sameSrc "a.csv")).map (·.close_price)
    ∧ (engineerAt [cRowA] 0).next_close_price = none
    ∧ engineerAt [cRowA] 0 ∉ engineer_features [cRowA] := by
  refine ⟨(c2_next_close [cRowA, cRowB] 0 (by decide)).1, ?_, ?_⟩
  · exact ((c2_next_close [cRowA] 0 (by decide)).2 (by decide)).1
  · exact ((c2_next_close [cRowA] 0 (by decide)).2 (by decide)).2

/-! ## Row counting through the drop step (C5) and division guards (C10) -/

theorem scale100_isNaN (x : XVal) : (x.scale 100).isNaN = x.isNaN := by
  cases x <;> norm_num [XVal.scale, XVal.isNaN]

theorem abs_isNaN (x : XVal) : x.abs.isNaN = x.isNaN := by
  cases x <;> rfl

theorem fdiv_isNaN (a b : ℚ) :
    (fdiv a b).isNaN = (decide (b = 0) && decide (a = 0)) := by
  unfold fdiv
  by_cases hb : b = 0
  · by_cases ha : a = 0
    · simp [hb, ha, XVal.isNaN]
    · simp only [hb, ha, if_true, if_false, decide_True, decide_False, Bool.and_false]
      split <;> rfl
  · simp [hb, XVal.isNaN]

theorem pct_isNaN (r : Row) :
    r.price_change_pct.isNaN
      = (decide (r.open_price = 0) && decide (r.close_price = 0)) := by
  unfold Row.price_change_pct
  rw [scale100_isNaN, fdiv_isNaN]
  unfold Row.price_change
  by_cases ho : r.open_price = 0
  · simp [ho, sub_zero]
  · simp [ho]

theorem volatility_isNaN (r : Row) :
    r.volatility.isNaN = (decide (r.open_price = 0) && decide (r.close_price = 0)) := by
  unfold Row.volatility
  rw [abs_isNaN, pct_isNaN]

theorem vpt_isNaN (r : Row) : r.volume_per_trade.isNaN = false := by
  unfold Row.volume_per_trade
  rw [fdiv_isNaN]
  have h : ((r.number_of_trades : ℚ) + 1) ≠ 0 := by positivity
  simp [h]

theorem ratio_isNaN (r : Row) :
    r.volume_price_ratio.isNaN
      = (decide (r.open_price = 0) && decide (r.asset_volume = 0)) := by
  unfold Row.volume_price_ratio
  rw [fdiv_isNaN]

theorem rollingMeanAt_isSome (w : Nat) (vals : List ℚ) (p : Nat) :
    (rollingMeanAt w vals p).isSome = decide (w ≤ p + 1) := by
  unfold rollingMeanAt
  split <;> simp_all

theorem lagValAt_isSome (k : Nat) (vals : List ℚ) (p : Nat) (hp : p < vals.length) :
    (lagValAt k vals p).isSome = decide (k ≤ p) := by
  unfold lagValAt
  split
  · next h => simp [List.getElem?_eq_getElem (show p - k < vals.length by omega), h]
  · next h => simp [h]

theorem nextValAt_isSome (vals : List ℚ) (p : Nat) :
    (nextValAt vals p).isSome = decide (p + 1 < vals.length) := by
  unfold nextValAt
  by_cases h : p + 1 < vals.length
  · simp [List.getElem?_eq_getElem h, h]
  · rw [List.getElem?_eq_none (by omega)]
    simp [h]

theorem filter_sameSrc_self {xs : List Row} {s : String}
    (h : ∀ r ∈ xs, r.source_file = s) : xs.filter (sameSrc s) = xs :=
  List.filter_eq_self.mpr fun r hr => by simp [sameSrc, h r hr]

theorem filter_sameSrc_nil {xs : List Row} {s : String}
    (h : ∀ r ∈ xs, r.source_file ≠ s) : xs.filter (sameSrc s) = [] := by
  rw [List.filter_eq_nil_iff]
  intro r hr
  simp [sameSrc]
  exact h r hr

theorem single_rowAt_src {xs : List Row} {s : String}
    (h : ∀ r ∈ xs, r.source_file = s) {i : Nat} (hi : i < xs.length) :
    (rowAt xs i).source_file = s := by
  rw [rowAt_eq_getElem xs i hi]
  exact h _ (xs.getElem_mem hi)

theorem single_inGroupPos {xs : List Row} {s : String}
    (h : ∀ r ∈ xs, r.source_file = s) {i : Nat} (hi : i < xs.length) :
    inGroupPos xs i = i := by
  unfold inGroupPos
  rw [single_rowAt_src h hi,
    filter_sameSrc_self fun r hr => h r (List.take_subset i xs hr),
    List.length_take]
  omega

theorem single_rowComplete {xs : List Row} {s : String}
    (h : ∀ r ∈ xs, r.source_file = s)
    (hnd : ∀ r ∈ xs, ¬(r.open_price = 0 ∧ r.close_price = 0)
      ∧ ¬(r.open_price = 0 ∧ r.asset_volume = 0))
    {i : Nat} (hi : i < xs.length) :
    rowComplete (engineerAt xs i) = (decide (9 ≤ i) && decide (i + 2 ≤ xs.length)) := by
  have hgrp : groupRows xs (rowAt xs i).source_file = xs := by
    rw [single_rowAt_src h hi]
    exact filter_sameSrc_self h
  have hpos := single_inGroupPos h hi
  have hmem : rowAt xs i ∈ xs := by
    rw [rowAt_eq_getElem xs i hi]
    exact xs.getElem_mem hi
  obtain ⟨hnd1, hnd2⟩ := hnd _ hmem
  have h1 : (rowAt xs i).price_change_pct.isNaN = false := by
    rw [pct_isNaN]
    by_cases ho : (rowAt xs i).open_price = 0
    · have hc : (rowAt xs i).close_price ≠ 0 := fun hc => hnd1 ⟨ho, hc⟩
      simp [ho, hc]
    · simp [ho]
  have h2 : (rowAt xs i).volatility.isNaN = false := by
    rw [volatility_isNaN]
    by_cases ho : (rowAt xs i).open_price = 0
    · have hc : (rowAt xs i).close_price ≠ 0 := fun hc => hnd1 ⟨ho, hc⟩
      simp [ho, hc]
    · simp [ho]
  have h3 : (rowAt xs i).volume_price_ratio.isNaN = false := by
    rw [ratio_isNaN]
    by_cases ho : (rowAt xs i).open_price = 0
    · have hv : (rowAt xs i).asset_volume ≠ 0 := fun hv => hnd2 ⟨ho, hv⟩
      simp [ho, hv]
    · simp [ho]
  unfold rowComplete engineerAt
  simp only
  unfold smaAt volSmaAt priceLagAt volumeLagAt nextCloseAt groupColAt
  rw [hgrp, hpos]
  have hlen : (xs.map (·.close_price)).length = xs.length := List.length_map xs _
  have hlen2 : (xs.map (·.asset_volume)).length = xs.length := List.length_map xs _
  rw [h1, h2, vpt_isNaN, h3]
  rw [rollingMeanAt_isSome, rollingMeanAt_isSome, rollingMeanAt_isSome,
    rollingMeanAt_isSome, rollingMeanAt_isSome, rollingMeanAt_isSome,
    lagValAt_isSome _ _ _ (by omega), lagValAt_isSome _ _ _ (by omega),
    lagValAt_isSome _ _ _ (by omega), lagValAt_isSome _ _ _ (by omega),
    lagValAt_isSome _ _ _ (by omega), lagValAt_isSome _ _ _ (by omega),
    nextValAt_isSome, hlen]
  rw [Bool.eq_iff_iff]
  simp only [Bool.and_eq_true, Bool.not_eq_true', decide_eq_true_eq, Bool.not_false,
    Bool.true_and]
  omega

theorem engineerAt_congr {xs ys : List Row} {i j : Nat}
    (h3 : inGroupPos xs i = inGroupPos ys j)
    (h1 : rowAt xs i = rowAt ys j)
    (h2 : groupRows xs (rowAt ys j).source_file = groupRows ys (rowAt ys j).source_file) :
    engineerAt xs i = engineerAt ys j := by
  unfold engineerAt smaAt volSmaAt priceLagAt volumeLagAt nextCloseAt groupColAt
  rw [h3, h1, h2]

theorem block_left {A B : List Row} {a b : String}
    (hA : ∀ r ∈ A, r.source_file = a) (hB : ∀ r ∈ B, r.source_file = b)
    (hab : a ≠ b) {i : Nat} (hi : i < A.length) :
    engineerAt (A ++ B) i = engineerAt A i := by
  have hiAB : i < (A ++ B).length := by rw [List.length_append]; omega
  have h1 : rowAt (A ++ B) i = rowAt A i := by
    rw [rowAt_eq_getElem _ i hiAB, rowAt_eq_getElem A i hi]
    exact List.getElem_append_left hi
  have hsrc : (rowAt A i).source_file = a := single_rowAt_src hA hi
  have h2 : groupRows (A ++ B) (rowAt A i).source_file
      = groupRows A (rowAt A i).source_file := by
    unfold groupRows
    have hBnil : List.filter (sameSrc a) B = [] :=
      filter_sameSrc_nil fun r hr => by rw [hB r hr]; exact fun hba => hab hba.symm
    rw [List.filter_append, hsrc, hBnil, List.append_nil]
  have h3 : inGroupPos (A ++ B) i = inGroupPos A i := by
    unfold inGroupPos
    rw [h1, List.take_append_eq_append_take, show i - A.length = 0 by omega,
      List.take_zero, List.append_nil]
  exact engineerAt_congr h3 h1 h2

theorem block_right {A B : List Row} {a b : String}
    (hA : ∀ r ∈ A, r.source_file = a) (hB : ∀ r ∈ B, r.source_file = b)
    (hab : a ≠ b) {j : Nat} (hj : j < B.length) :
    engineerAt (A ++ B) (A.length + j) = engineerAt B j := by
  have hjAB : A.length + j < (A ++ B).length := by rw [List.length_append]; omega
  have h1 : rowAt (A ++ B) (A.length + j) = rowAt B j := by
    rw [rowAt_eq_getElem _ _ hjAB, rowAt_eq_getElem B j hj,
      List.getElem_append_right (by omega)]
    congr 1
    omega
  have hsrc : (rowAt B j).source_file = b := single_rowAt_src hB hj
  have hAnil : List.filter (sameSrc b) A = [] :=
    filter_sameSrc_nil fun r hr => by rw [hA r hr]; exact hab
  have h2 : groupRows (A ++ B) (rowAt B j).source_file
      = groupRows B (rowAt B j).source_file := by
    unfold groupRows
    rw [List.filter_append, hsrc, hAnil, List.nil_append]
  have h3 : inGroupPos (A ++ B) (A.length + j) = inGroupPos B j := by
    unfold inGroupPos
    rw [h1, List.take_append_eq_append_take,
      List.take_of_length_le (by omega : A.length ≤ A.length + j),
      show A.length + j - A.length = j by omega,
      List.filter_append, List.length_append, hsrc, hAnil]
    simp
  exact engineerAt_congr h3 h1 h2

theorem engineer_features_append {A B : List Row} {a b : String}
    (hA : ∀ r ∈ A, r.source_file = a) (hB : ∀ r ∈ B, r.source_file = b)
    (hab : a ≠ b) :
    engineer_features (A ++ B) = engineer_features A ++ engineer_features B := by
  have e1 : (List.range A.length).map (engineerAt (A ++ B))
      = (List.range A.length).map (engineerAt A) :=
    List.map_congr_left fun i hi => block_left hA hB hab (List.mem_range.mp hi)
  have e2 : (List.range B.length).map (engineerAt (A ++ B) ∘ (A.length + ·))
      = (List.range B.length).map (engineerAt B) :=
    List.map_congr_left fun j hj => block_right hA hB hab (List.mem_range.mp hj)
  unfold engineer_features
  rw [List.length_append, List.range_add, List.map_append, List.map_map, e1, e2,
    List.filter_append]

theorem single_source_count {xs : List Row} {s : String}
    (h : ∀ r ∈ xs, r.source_file = s)
    (hnd : ∀ r ∈ xs, ¬(r.open_price = 0 ∧ r.close_price = 0)
      ∧ ¬(r.open_price = 0 ∧ r.asset_volume = 0))
    (hn : xs.length = 20) :
    (engineer_features xs).length = 10 := by
  unfold engineer_features
  rw [← List.countP_eq_length_filter, List.countP_map]
  have hcong : List.countP (rowComplete ∘ engineerAt xs) (List.range xs.length)
      = List.countP (fun i => decide (9 ≤ i ∧ i + 2 ≤ 20)) (List.range xs.length) := by
    apply List.countP_congr
    intro i hi
    have hi20 : i < xs.length := List.mem_range.mp hi
    simp only [Function.comp_apply, single_rowComplete h hnd hi20, hn,
      Bool.and_eq_true, decide_eq_true_eq]
  rw [hcong, hn]
  decide

/-- The close prices along a list of rows are strictly increasing
(executable form of the scenario premise). -/
def strictlyIncreasingCloses : List Row → Bool
  | x :: y :: t => decide (x.close_price < y.close_price) && strictlyIncreasingCloses (y :: t)
  | _ => true

/-- **C5 (amended).** For two source files of 20 rows each, tagged with
distinct source names, with disjoint timestamp ranges and strictly
increasing close prices and no missing input values — and no degenerate
row pairing a zero open price with a zero close price or zero volume,
which would make a derived ratio undefined (`0/0`) and drop that row
too — feature engineering keeps, per source, exactly the rows that have
both a full 10-row window and a target: the 9 head rows and the final row
of each source are dropped, so the result has `(20 - 9 - 1) * 2 = 20`
rows. -/
theorem c5_row_count (A B : List Row) (a b : String) (hab : a ≠ b)
    (hA : ∀ r ∈ A, r.source_file = a) (hB : ∀ r ∈ B, r.source_file = b)
    (hlA : A.length = 20) (hlB : B.length = 20)
    (hnd : ∀ r ∈ A ++ B, ¬(r.open_price = 0 ∧ r.close_price = 0)
      ∧ ¬(r.open_price = 0 ∧ r.asset_volume = 0))
    (hts : ∀ r1 ∈ A, ∀ r2 ∈ B, r1.datetime < r2.datetime)
    (hincA : strictlyIncreasingCloses A = true)
    (hincB : strictlyIncreasingCloses B = true) :
    (engineer_features (A ++ B)).length = 20 := by
  rw [engineer_features_append hA hB hab, List.length_append,
    single_source_count hA (fun r hr => hnd r (List.mem_append_left B hr)) hlA,
    single_source_count hB (fun r hr => hnd r (List.mem_append_right A hr)) hlB]

/-- Row `t` of the first synthetic 20-row source file. -/
def c5RowA (t : Nat) : Row :=
  { datetime := t, source_file := "btc.csv", dataset_category := "bitcoin",
    open_price := 1, close_price := (t : ℚ), asset_volume := 1, number_of_trades := 1 }

/-- Row `t` of the second synthetic 20-row source file (later timestamps). -/
def c5RowB (t : Nat) : Row :=
  { datetime := 100 + t, source_file := "eth.csv", dataset_category := "ethereum",
    open_price := 1, close_price := ((100 + t : Nat) : ℚ), asset_volume := 1,
    number_of_trades := 1 }

/-- The first synthetic source file. -/
def c5A : List Row := (List.range 20).map c5RowA

/-- The second synthetic source file. -/
def c5B : List Row := (List.range 20).map c5RowB

/-- Counterexample to C5 as stated: a pair of 20-row sources satisfying all
of the claim's premises yields 20 engineered rows, not 22 — each source
also loses its final row (no target), which the claim's arithmetic
`(20 - 9) * 2` fails to subtract. -/
theorem c5_count_counterexample :
    (∀ r ∈ c5A, r.source_file = "btc.csv")
    ∧ (∀ r ∈ c5B, r.source_file = "eth.csv")
    ∧ c5A.length = 20 ∧ c5B.length = 20
    ∧ (∀ r1 ∈ c5A, ∀ r2 ∈ c5B, r1.datetime < r2.datetime)
    ∧ strictlyIncreasingCloses c5A = true
    ∧ strictlyIncreasingCloses c5B = true
    ∧ (engineer_features (c5A ++ c5B)).length = 20
    ∧ (engineer_features (c5A ++ c5B)).length ≠ 22 := by
  with_unfolding_all decide

/-- Witness for C5 (amended): the amended count theorem applied to the two
synthetic source files. -/
theorem c5_row_count_witness : (engineer_features (c5A ++ c5B)).length = 20 :=
  c5_row_count c5A c5B "btc.csv" "eth.csv" (by decide) (by decide) (by decide)
    (by decide) (by decide) (by with_unfolding_all decide) (by decide)
    (by with_unfolding_all decide) (by with_unfolding_all decide)

/-! ## Consolidation order (C4) -/

theorem insertByDt_perm (r : Row) : ∀ l : List Row, List.Perm (insertByDt r l) (r :: l)
  | [] => List.Perm.refl _
  | x :: xs => by
    unfold insertByDt
    by_cases hle : r.datetime ≤ x.datetime
    · rw [if_pos hle]
    · rw [if_neg hle]
      exact List.Perm.trans ((insertByDt_perm r xs).cons x) (List.Perm.swap r x xs)

theorem sortedByDt_insertByDt (r : Row) :
    ∀ {l : List Row}, sortedByDt l → sortedByDt (insertByDt r l)
  | [], _ => by simp [insertByDt, sortedByDt]
  | x :: xs, h => by
    unfold insertByDt
    by_cases hle : r.datetime ≤ x.datetime
    · rw [if_pos hle]
      exact List.chain'_cons.mpr ⟨hle, h⟩
    · rw [if_neg hle]
      have ih := sortedByDt_insertByDt r (List.Chain'.tail h)
      rw [sortedByDt, List.chain'_cons']
      refine ⟨?_, ih⟩
      intro y hy
      cases xs with
      | nil =>
        simp [insertByDt] at hy
        subst hy
        omega
      | cons z zs =>
        unfold insertByDt at hy
        by_cases hrz : r.datetime ≤ z.datetime
        · rw [if_pos hrz] at hy
          simp at hy
          subst hy
          omega
        · rw [if_neg hrz] at hy
          simp at hy
          subst hy
          exact (List.chain'_cons.mp h).1

theorem stableSortByDt_perm : ∀ l : List Row, List.Perm (stableSortByDt l) l
  | [] => List.Perm.refl _
  | x :: xs => by
    show List.Perm (insertByDt x (stableSortByDt xs)) (x :: xs)
    exact List.Perm.trans (insertByDt_perm x _) ((stableSortByDt_perm xs).cons x)

theorem stableSortByDt_sorted : ∀ l : List Row, sortedByDt (stableSortByDt l)
  | [] => by simp [stableSortByDt, sortedByDt]
  | x :: xs => sortedByDt_insertByDt x (stableSortByDt_sorted xs)

/-- First raw row of the tie counterexample. -/
def c4r0 : RawRow :=
  { datetime := 0, open_price := 1, close_price := 5, asset_volume := 1,
    number_of_trades := 1 }

/-- Second raw row, same timestamp, different close price. -/
def c4r1 : RawRow :=
  { datetime := 0, open_price := 1, close_price := 7, asset_volume := 1,
    number_of_trades := 1 }

/-- One input file holding the two tied rows. -/
def c4files : List (String × List RawRow) := [("f.csv", [c4r0, c4r1])]

/-- `c4r0` after tagging. -/
def c4R0 : Row :=
  { datetime := 0, source_file := "f.csv", dataset_category := "other",
    open_price := 1, close_price := 5, asset_volume := 1, number_of_trades := 1 }

/-- `c4r1` after tagging. -/
def c4R1 : Row :=
  { datetime := 0, source_file := "f.csv", dataset_category := "other",
    open_price := 1, close_price := 7, asset_volume := 1, number_of_trades := 1 }

/-- The tied rows in swapped order. -/
def c4out : List Row := [c4R1, c4R0]

/-- Counterexample to C4 as stated: the sort contract the consolidation
step relies on (`sort_values` with the default quicksort kind) guarantees
only a `datetime`-sorted permutation, and the swapped order of two
equal-`datetime` rows satisfies it while differing from the stable
(original-order-preserving) result — so "ties keep their original row
order" is not guaranteed by the code. -/
theorem c4_sort_counterexample :
    consolidates c4files c4out
    ∧ c4out ≠ stableSortByDt (concatFiles c4files) := by
  have hconcat : concatFiles c4files = [c4R0, c4R1] := by decide
  refine ⟨⟨?_, ?_⟩, ?_⟩
  · rw [hconcat]
    exact List.Perm.swap c4R1 c4R0 []
  · show List.Chain' _ [c4R1, c4R0]
    simp [List.chain'_pair, c4R0, c4R1]
  · rw [hconcat]
    decide

/-- **C4 (amended).** Any output the consolidation step may produce is
sorted by `datetime` ascending and is a permutation of the concatenated
tagged per-file rows; the stable order (ties by original row position) is
one admissible output, but the order of equal-`datetime` rows is not
otherwise constrained by the sort's contract. -/
theorem c4_consolidation_sorted (files : List (String × List RawRow)) (out : List Row)
    (h : consolidates files out) :
    sortedByDt out ∧ (concatFiles files).Perm out
    ∧ consolidates files (stableSortByDt (concatFiles files)) :=
  ⟨h.2, h.1, (stableSortByDt_perm _).symm, stableSortByDt_sorted _⟩

/-- Witness for C4 (amended), applied to the concrete two-row file with the
stable output. -/
theorem c4_consolidation_sorted_witness :
    sortedByDt (stableSortByDt (concatFiles c4files))
    ∧ (concatFiles c4files).Perm (stableSortByDt (concatFiles c4files))
    ∧ consolidates c4files (stableSortByDt (concatFiles c4files)) :=
  c4_consolidation_sorted c4files (stableSortByDt (concatFiles c4files))
    ⟨(stableSortByDt_perm _).symm, stableSortByDt_sorted _⟩

/-! ## The chronological split (C3) -/

theorem ttsplit_ok {α : Type} {xs tr te : List α} {t : ℚ}
    (h : ttsplit xs t = Except.ok (tr, te)) :
    (0 < t ∧ t < 1) ∧ ⌈t * xs.length⌉₊ < xs.length
    ∧ tr = xs.take (xs.length - ⌈t * xs.length⌉₊)
    ∧ te = xs.drop (xs.length - ⌈t * xs.length⌉₊) := by
  unfold ttsplit at h
  split_ifs at h with h1 h2
  · simp only [Except.ok.injEq, Prod.mk.injEq] at h
    have hle : ⌈t * xs.length⌉₊ ≤ xs.length := by
      rw [Nat.ceil_le]
      calc t * (xs.length : ℚ) ≤ 1 * xs.length := by
            apply mul_le_mul_of_nonneg_right (le_of_lt h1.2)
            exact Nat.cast_nonneg _
        _ = xs.length := one_mul _
    exact ⟨h1, by omega, h.1.symm, h.2.symm⟩

/-- A concrete engineered row (used to build concrete collections). -/
def dFR : FeatRow := engineerAt [] 0

/-- Counterexample to C3 as stated: with in-range fractions summing below
one, the split of a one-row collection produces no partitions at all — the
underlying split call rejects it because the train slice would be empty —
so the claim's universal "produces three slices" fails. -/
theorem c3_split_counterexample :
    (0 < (1/2 : ℚ) ∧ (1/2 : ℚ) < 1) ∧ (0 < (1/4 : ℚ) ∧ (1/4 : ℚ) < 1)
    ∧ (1/2 : ℚ) + 1/4 < 1
    ∧ okB (split_data (some [dFR]) (1/2 : ℚ) (1/4)) = false := by
  with_unfolding_all decide

/-- **C3 (amended).** Whenever the split returns partitions, they are three
consecutive order-preserving slices whose in-order concatenation is exactly
the input collection, with test the trailing `ceil(t·n)` rows and
validation the trailing `ceil(v/(1-t)·(n - |test|))` rows of the remainder
(so chronologically train < validation < test); the split can instead
signal an error when a stage's train slice would be empty (e.g. a one-row
collection).  On any 100-row collection with `t = v = 1/10` it succeeds
with sizes 80/10/10. -/
theorem c3_split_structure :
    (∀ (xs : List FeatRow) (t v : ℚ) (tr va te : List FeatRow),
      split_data (some xs) t v = Except.ok (tr, va, te) →
      tr ++ (va ++ te) = xs
      ∧ te.length = ⌈t * xs.length⌉₊
      ∧ va.length = ⌈v / (1 - t) * ((xs.length - te.length : ℕ) : ℚ)⌉₊
      ∧ tr.length = xs.length - te.length - va.length)
    ∧ (∀ xs : List FeatRow, xs.length = 100 →
      ∃ tr va te, split_data (some xs) (1/10 : ℚ) (1/10) = Except.ok (tr, va, te)
        ∧ tr.length = 80 ∧ va.length = 10 ∧ te.length = 10 ∧ tr ++ (va ++ te) = xs) := by
  constructor
  · intro xs t v tr va te h
    simp only [split_data] at h
    split at h
    · exact absurd h (by simp)
    · next tmp te2 h1 =>
      split at h
      · exact absurd h (by simp)
      · next tr2 va2 h2 =>
        simp only [Except.ok.injEq, Prod.mk.injEq] at h
        obtain ⟨htr, hva, hte⟩ := h
        subst htr hva hte
        obtain ⟨-, hb1, htmp, hte2⟩ := ttsplit_ok h1
        obtain ⟨-, hb2, htr2, hva2⟩ := ttsplit_ok h2
        have hlen1 : te2.length = ⌈t * xs.length⌉₊ := by
          rw [hte2, List.length_drop]
          omega
        have hltmp : tmp.length = xs.length - ⌈t * xs.length⌉₊ := by
          rw [htmp, List.length_take]
          omega
        have hlen2 : va2.length = ⌈v / (1 - t) * ((xs.length - te2.length : ℕ) : ℚ)⌉₊ := by
          rw [hva2, List.length_drop, hlen1, ← hltmp]
          omega
        refine ⟨?_, hlen1, hlen2, ?_⟩
        · rw [← List.append_assoc, htr2, hva2, List.take_append_drop, htmp, hte2,
            List.take_append_drop]
        · rw [htr2, List.length_take]
          have hx : xs.length - te2.length = tmp.length := by omega
          rw [hx] at hlen2
          rw [← hlen2]
          omega
  · intro xs hlen
    have hc1 : ⌈(1/10 : ℚ) * ((100 : ℕ) : ℚ)⌉₊ = 10 := by with_unfolding_all decide
    have e1 : ttsplit xs (1/10 : ℚ) = Except.ok (xs.take 90, xs.drop 90) := by
      unfold ttsplit
      rw [if_pos (by norm_num), hlen, hc1]
      norm_num
    have hl90 : (xs.take 90).length = 90 := by
      rw [List.length_take, hlen]
      omega
    have hc2 : ⌈((1 : ℚ)/10) / (1 - 1/10) * ((90 : ℕ) : ℚ)⌉₊ = 10 := by
      with_unfolding_all decide
    have e2 : ttsplit (xs.take 90) ((1/10 : ℚ) / (1 - 1/10))
        = Except.ok ((xs.take 90).take 80, (xs.take 90).drop 80) := by
      unfold ttsplit
      rw [if_pos (by norm_num), hl90, hc2]
      norm_num
    refine ⟨(xs.take 90).take 80, (xs.take 90).drop 80, xs.drop 90, ?_, ?_, ?_, ?_, ?_⟩
    · simp only [split_data, e1, e2]
    · rw [List.length_take, hl90]
      omega
    · rw [List.length_drop, hl90]
    · rw [List.length_drop, hlen]
    · rw [← List.append_assoc, List.take_append_drop, List.take_append_drop]

/-- Witness for C3 (amended): the concrete 80/10/10 split of a 100-row
collection. -/
theorem c3_split_structure_witness :
    ∃ tr va te,
      split_data (some (List.replicate 100 dFR)) (1/10 : ℚ) (1/10)
        = Except.ok (tr, va, te)
      ∧ tr.length = 80 ∧ va.length = 10 ∧ te.length = 10
      ∧ tr ++ (va ++ te) = List.replicate 100 dFR :=
  c3_split_structure.2 (List.replicate 100 dFR) (by simp)

/-! ## Division guards (C10) -/

theorem scale100_isFinite (x : XVal) : (x.scale 100).isFinite = x.isFinite := by
  cases x <;> norm_num [XVal.scale, XVal.isFinite]

theorem abs_isFinite (x : XVal) : x.abs.isFinite = x.isFinite := by
  cases x <;> rfl

theorem fdiv_zero_isFinite (a : ℚ) : (fdiv a 0).isFinite = false := by
  unfold fdiv
  rw [if_pos rfl]
  split_ifs <;> rfl

/-- Row `t` of a single 12-row source whose row 10 has a zero open price. -/
def c10Row (t : Nat) : Row :=
  { datetime := t, source_file := "btc.csv", dataset_category := "bitcoin",
    open_price := if t = 10 then 0 else 1, close_price := (t : ℚ) + 1,
    asset_volume := 1, number_of_trades := 2 }

/-- The 12-row collection containing the zero-open-price row. -/
def c10rows : List Row := (List.range 12).map c10Row

/-- **C10.** The divisor of `volume_per_trade` is `number_of_trades + 1`,
nonzero for every count, so that division always yields a finite value;
`price_change_pct` and `volume_price_ratio` divide by `open_price` with no
guard, so a row with `open_price = 0` gets non-finite derived values
(infinities, or NaN in the doubly degenerate cases) — yet such a row can
survive the undefined-value drop step, as the concrete collection shows:
its engineered output still contains a row with zero open price, because
the drop removes only NaN/missing values and an infinity is neither. -/
theorem c10_division_guards :
    (∀ r : Row, ((r.number_of_trades : ℚ) + 1) ≠ 0
      ∧ ∃ q, r.volume_per_trade = XVal.fin q)
    ∧ (∀ r : Row, r.open_price = 0 →
        r.price_change_pct.isFinite = false
        ∧ r.volatility.isFinite = false
        ∧ r.volume_price_ratio.isFinite = false)
    ∧ (engineer_features c10rows).any (fun fr => fr.base.open_price == 0) = true := by
  refine ⟨?_, ?_, ?_⟩
  · intro r
    have h : ((r.number_of_trades : ℚ) + 1) ≠ 0 := by positivity
    refine ⟨h, ?_⟩
    unfold Row.volume_per_trade fdiv
    rw [if_neg h]
    exact ⟨_, rfl⟩
  · intro r ho
    refine ⟨?_, ?_, ?_⟩
    · unfold Row.price_change_pct
      rw [ho, scale100_isFinite, fdiv_zero_isFinite]
    · unfold Row.volatility Row.price_change_pct
      rw [ho, abs_isFinite, scale100_isFinite, fdiv_zero_isFinite]
    · unfold Row.volume_price_ratio
      rw [ho, fdiv_zero_isFinite]
  · with_unfolding_all decide

/-- Witness for C10 at the concrete zero-open-price row. -/
theorem c10_division_guards_witness :
    (c10Row 10).price_change_pct.isFinite = false
    ∧ (c10Row 10).volatility.isFinite = false
    ∧ (c10Row 10).volume_price_ratio.isFinite = false :=
  c10_division_guards.2.1 (c10Row 10) (by decide)
